import Mathlib

/-!
# Verification of the cubic-protocol codec layer

Shallow embedding of `src/protocol.rs` (crate `cubic-protocol`): the
variable-length integer codec (`VarInt`/`VarLong`), length-limited strings,
`BlockPosition` bit packing, `Angle`, `RemainingBytesArray`,
`LengthProvidedArray` and the `BlockId` delegation, together with proofs of
the specified properties.

Conventions of the embedding:
* A byte queue is a `List Nat` (front element = next byte to be taken);
  a well-formed stream has all entries `< 256`.
* A reader (`Readable::read`) for a value type `α` becomes a function
  `List Nat → Except ReadError α × List Nat`, returning the outcome together
  with the queue state after the call (mirroring the `&mut impl
  InputByteQueue` argument).
* A writer (`Writable::write`) becomes a function `α → List Nat`, the bytes
  appended to the output queue.  All writers modelled here are infallible in
  the source (`WriteError` can only arise from external JSON/NBT
  serialization, which is not modelled).
* Machine integers are `Nat`/`Int` with explicit reductions `% 2^w`;
  `toUnsigned w` is the `as uW` bit pattern of a signed value, `toSigned w`
  reinterprets a `w`-bit pattern as the signed value.
-/

namespace CubicProtocol

deriving instance DecidableEq for Except

/-- The read-failure taxonomy (`ReadError` in `protocol.rs`).  Only variants
producible by the codecs modelled here are included, and payloads carried by
external-library errors (`Utf8Error`, `serde_json::Error`,
`InputByteQueueError`) are dropped. -/
inductive ReadError where
  | BadVarNum
  | BadUtf8
  | BadStringLimit (limit : Int)
  | BadJson
  | InputQueue
deriving DecidableEq, Repr

/-- Modelled from the spec: the input byte queue's `take_byte` operation
(the `bytes` module declaring `InputByteQueue` is not under `src/`; spec §6
fixes its contract: yield the front byte, or an I/O-queue error when the
queue is empty). -/
def takeByte : List Nat → Except ReadError Nat × List Nat
  | [] => (.error .InputQueue, [])
  | b :: rest => (.ok b, rest)

/-- Modelled from the spec: `take_bytes` / `take_vec` — take exactly `n`
bytes, or fail with the I/O-queue error when fewer than `n` remain
(spec §6); on failure the queue is left as it was. -/
def takeN (n : Nat) (input : List Nat) : Except ReadError (List Nat) × List Nat :=
  if n ≤ input.length then (.ok (input.take n), input.drop n)
  else (.error .InputQueue, input)

/-- The bit pattern of the signed value `v` as a `width`-bit unsigned
integer (Rust's `as uW` on an iW value). -/
def toUnsigned (width : Nat) (v : Int) : Nat := (v % ((2 : Int) ^ width)).toNat

/-- Reinterpret a `width`-bit pattern as a signed value (Rust's `as iW` on
a `width`-bit unsigned value). -/
def toSigned (width : Nat) (n : Nat) : Int :=
  if n < 2 ^ (width - 1) then (n : Int) else (n : Int) - 2 ^ width

/-- The write loop of `protocol_var_num_type!` (`protocol.rs` lines
129–141), operating on the `as u32`/`as u64` bit pattern `value` of the
number being written: while bits other than the low 7 remain
(`value & !0x7f != 0`, where `!0x7f` as a `width`-bit unsigned value is
`2^width - 128`), emit the low 7 bits with the continuation bit `0x80` set
and shift right by 7; the final byte is emitted with its high bit clear.
`value as u8` is `value % 256`. -/
def varNumWriteCore (width : Nat) (value : Nat) : List Nat :=
  if h : value &&& (2 ^ width - 128) = 0 then [value % 256]
  else ((value % 256) &&& 0x7f ||| 0x80) :: varNumWriteCore width (value >>> 7)
termination_by value
decreasing_by
  have hv : value ≠ 0 := by
    intro h0
    rw [h0] at h
    simp at h
  rw [Nat.shiftRight_eq_div_pow]
  exact Nat.div_lt_self (Nat.pos_of_ne_zero hv) (by norm_num)

/-- The read loop of `protocol_var_num_type!` (`protocol.rs` lines
144–162): take a byte, OR its low 7 bits into the accumulator at the
current bit `position` (the shift truncates to the type's width, as Rust's
`<<` on `iW` does), stop on a clear continuation bit, and fail with
`BadVarNum` once the position would reach the type's bit width. -/
def varNumReadCore (width : Nat) : Nat → Nat → List Nat → Except ReadError Nat × List Nat
  | _, _, [] => (.error .InputQueue, [])
  | value, position, b :: rest =>
    let value' := value ||| ((b &&& 0x7f) <<< position) % 2 ^ width
    if b &&& 0x80 = 0 then (.ok value', rest)
    else if position + 7 ≥ width then (.error .BadVarNum, rest)
    else varNumReadCore width value' (position + 7) rest

/-- `VarInt::write`: the var-num loop on the value's `as u32` pattern. -/
def varIntWrite (v : Int) : List Nat := varNumWriteCore 32 (toUnsigned 32 v)

/-- `VarLong::write`: the var-num loop on the value's `as u64` pattern. -/
def varLongWrite (v : Int) : List Nat := varNumWriteCore 64 (toUnsigned 64 v)

/-- `VarInt::read`: run the var-num read loop at width 32 and reinterpret
the accumulator as an `i32`. -/
def varIntRead (input : List Nat) : Except ReadError Int × List Nat :=
  match varNumReadCore 32 0 0 input with
  | (.ok value, rest) => (.ok (toSigned 32 value), rest)
  | (.error e, rest) => (.error e, rest)

/-- `VarLong::read`: the var-num read loop at width 64, reinterpreted as an
`i64`. -/
def varLongRead (input : List Nat) : Except ReadError Int × List Nat :=
  match varNumReadCore 64 0 0 input with
  | (.ok value, rest) => (.ok (toSigned 64 value), rest)
  | (.error e, rest) => (.error e, rest)

set_option maxRecDepth 4000

/-! ## Arithmetic characterisation of the var-num write loop -/

/-- The loop-exit condition `value & !0x7f == 0` of the var-num writer says
exactly that the value fits in 7 bits. -/
lemma and_high_mask_eq_zero_iff (w v : Nat) (hw : 7 ≤ w) (hv : v < 2 ^ w) :
    v &&& (2 ^ w - 128) = 0 ↔ v < 128 := by
  have hm : (2 : Nat) ^ w - 128 = (2 ^ (w - 7) - 1) <<< 7 := by
    rw [Nat.shiftLeft_eq, Nat.sub_mul, ← Nat.pow_add]
    congr 2
    omega
  constructor
  · intro h
    have h128 : (128 : Nat) = 2 ^ 7 := by norm_num
    rw [h128]
    apply Nat.lt_pow_two_of_testBit
    intro i hi
    by_cases hiw : i < w
    · have hb := congrArg (fun x => x.testBit i) h
      simp only [hm, Nat.testBit_and, Nat.testBit_shiftLeft, Nat.zero_testBit,
        Nat.testBit_two_pow_sub_one] at hb
      have h7 : (7 : Nat) ≤ i := hi
      have hlt : i - 7 < w - 7 := by omega
      simpa [h7, hlt] using hb
    · exact Nat.testBit_lt_two_pow
        (lt_of_lt_of_le hv (Nat.pow_le_pow_right (by norm_num) (by omega)))
  · intro h
    apply Nat.eq_of_testBit_eq
    intro i
    simp only [Nat.testBit_and, Nat.zero_testBit, hm, Nat.testBit_shiftLeft]
    by_cases hi : 7 ≤ i
    · have hvi : v.testBit i = false := by
        apply Nat.testBit_lt_two_pow
        calc v < 128 := h
        _ = 2 ^ 7 := by norm_num
        _ ≤ 2 ^ i := Nat.pow_le_pow_right (by norm_num) hi
      simp [hvi]
    · simp [hi]

/-- A value below `2^k` has a clear `k`-th bit, so `&&& 2^k` is zero. -/
lemma and_two_pow_eq_zero (b k : Nat) (hb : b < 2 ^ k) : b &&& 2 ^ k = 0 := by
  apply Nat.eq_of_testBit_eq
  intro i
  simp only [Nat.testBit_and, Nat.zero_testBit]
  by_cases hik : k = i
  · subst hik
    simp [Nat.testBit_lt_two_pow hb]
  · simp [Nat.testBit_two_pow_of_ne hik]

/-- Setting bit `k` on a value below `2^k`: the `&&& 2^k` test sees it. -/
lemma add_two_pow_and_two_pow (b k : Nat) (hb : b < 2 ^ k) :
    (b + 2 ^ k) &&& 2 ^ k = 2 ^ k := by
  apply Nat.eq_of_testBit_eq
  intro i
  simp only [Nat.testBit_and]
  by_cases hik : k = i
  · subst hik
    rw [Nat.add_comm, Nat.testBit_two_pow_add_eq, Nat.testBit_lt_two_pow hb]
    simp [Nat.testBit_two_pow_self]
  · simp [Nat.testBit_two_pow_of_ne hik]

/-- Disjoint-bit OR is addition: `a ||| b * 2^p = a + b * 2^p` for `a < 2^p`. -/
lemma or_mul_two_pow_eq_add (a b p : Nat) (ha : a < 2 ^ p) :
    a ||| b * 2 ^ p = a + b * 2 ^ p := by
  rw [Nat.lor_comm, Nat.mul_comm]
  rw [← Nat.mul_add_lt_is_or ha, Nat.add_comm, Nat.mul_comm]

/-- The var-num write loop, restated arithmetically: emit `value % 128`
with the continuation bit while `value ≥ 128`, then the final 7-bit group. -/
lemma varNumWriteCore_eval (w v : Nat) (hw : 7 ≤ w) (hv : v < 2 ^ w) :
    varNumWriteCore w v =
      if v < 128 then [v] else (v % 128 + 128) :: varNumWriteCore w (v / 128) := by
  rw [varNumWriteCore]
  by_cases h : v < 128
  · rw [dif_pos ((and_high_mask_eq_zero_iff w v hw hv).mpr h), if_pos h]
    have : v % 256 = v := Nat.mod_eq_of_lt (by omega)
    rw [this]
  · rw [dif_neg (fun hc => h ((and_high_mask_eq_zero_iff w v hw hv).mp hc)), if_neg h]
    have h1 : (v % 256) &&& 0x7f = v % 128 := by
      have h127 : (0x7f : Nat) = 2 ^ 7 - 1 := by norm_num
      rw [h127, Nat.and_pow_two_sub_one_eq_mod]
      norm_num
    have h2 : v % 128 ||| 0x80 = v % 128 + 128 := by
      have := or_mul_two_pow_eq_add (v % 128) 1 7 (Nat.mod_lt _ (by norm_num))
      norm_num at this
      exact this
    rw [h1, h2, Nat.shiftRight_eq_div_pow]

/-- Fuel-indexed companion of the write loop, used to evaluate it on
concrete inputs (the loop itself recurses by well-founded measure, which
the kernel does not unfold). -/
def varNumWriteFuel (fuel v : Nat) : List Nat :=
  match fuel with
  | 0 => []
  | fuel + 1 => if v < 128 then [v] else (v % 128 + 128) :: varNumWriteFuel fuel (v / 128)

lemma varNumWriteCore_eq_fuel (w : Nat) (hw : 7 ≤ w) :
    ∀ fuel v, v < 2 ^ w → v < 128 ^ fuel → 1 ≤ fuel →
    varNumWriteCore w v = varNumWriteFuel fuel v := by
  intro fuel
  induction fuel with
  | zero => omega
  | succ fuel ih =>
    intro v hv hvf _
    rw [varNumWriteCore_eval w v hw hv, varNumWriteFuel]
    by_cases h : v < 128
    · rw [if_pos h, if_pos h]
    · rw [if_neg h, if_neg h]
      congr 1
      have hfuel : 1 ≤ fuel := by
        by_contra hc
        have : fuel = 0 := by omega
        subst this
        simp at hvf
        omega
      exact ih (v / 128) (lt_of_le_of_lt (Nat.div_le_self v 128) hv)
        (by
          rw [Nat.pow_succ] at hvf
          exact Nat.div_lt_of_lt_mul (by rw [Nat.mul_comm]; exact hvf))
        hfuel

/-! ## Round trip of the var-num codec -/

/-- Reading back what the write loop emitted: the read loop accumulates the
written groups of `n` at bit offset `p` on top of the low-bit accumulator
`value`, and consumes exactly the written bytes. -/
lemma varNumReadCore_write (w : Nat) (hw : 7 ≤ w) :
    ∀ n p value rest, n < 2 ^ (w - p) → p < w → value < 2 ^ p →
    varNumReadCore w value p (varNumWriteCore w n ++ rest) =
      (.ok (value + n * 2 ^ p), rest) := by
  intro n
  induction n using Nat.strong_induction_on with
  | _ n ih =>
    intro p value rest hn hp hv
    have hnw : n < 2 ^ w :=
      lt_of_lt_of_le hn (Nat.pow_le_pow_right (by norm_num) (by omega))
    have hshift : ∀ m : Nat, m < 2 ^ (w - p) → (m <<< p) % 2 ^ w = m * 2 ^ p := by
      intro m hm
      rw [Nat.shiftLeft_eq]
      apply Nat.mod_eq_of_lt
      calc m * 2 ^ p < 2 ^ (w - p) * 2 ^ p :=
            Nat.mul_lt_mul_of_lt_of_le hm (le_refl _) (Nat.pos_pow_of_pos p (by norm_num))
        _ = 2 ^ w := by rw [← Nat.pow_add]; congr 1; omega
    rw [varNumWriteCore_eval w n hw hnw]
    by_cases h : n < 128
    · rw [if_pos h]
      have hcont : n &&& 0x80 = 0 := by
        have := and_two_pow_eq_zero n 7 (by norm_num; omega)
        norm_num at this
        exact this
      have hlow : n &&& 0x7f = n := by
        have h127 : (0x7f : Nat) = 2 ^ 7 - 1 := by norm_num
        rw [h127, Nat.and_pow_two_sub_one_eq_mod]
        omega
      simp only [List.cons_append, List.nil_append, List.append_eq, varNumReadCore,
        hlow, hcont, hshift n hn, or_mul_two_pow_eq_add value n p hv, reduceIte]
    · rw [if_neg h]
      have hmod : (n % 128 + 128) &&& 0x7f = n % 128 := by
        have h127 : (0x7f : Nat) = 2 ^ 7 - 1 := by norm_num
        rw [h127, Nat.and_pow_two_sub_one_eq_mod]
        omega
      have hcont : (n % 128 + 128) &&& 0x80 = 128 := by
        have := add_two_pow_and_two_pow (n % 128) 7 (by norm_num; omega)
        norm_num at this
        exact this
      have hwp : 7 < w - p := by
        by_contra hc
        have : 2 ^ (w - p) ≤ 2 ^ 7 := Nat.pow_le_pow_right (by norm_num) (by omega)
        norm_num at this
        omega
      have hm128 : n % 128 < 2 ^ (w - p) := by
        have : (128 : Nat) = 2 ^ 7 := by norm_num
        have hle : (2 : Nat) ^ 7 ≤ 2 ^ (w - p) := Nat.pow_le_pow_right (by norm_num) (by omega)
        omega
      have hvalue' : value + n % 128 * 2 ^ p < 2 ^ (p + 7) := by
        have h1 : n % 128 * 2 ^ p ≤ 127 * 2 ^ p :=
          Nat.mul_le_mul_right _ (by omega)
        have h2 : (2 : Nat) ^ (p + 7) = 128 * 2 ^ p := by
          rw [Nat.pow_add, Nat.mul_comm]
        omega
      have hdiv : n / 128 < 2 ^ (w - (p + 7)) := by
        rw [Nat.div_lt_iff_lt_mul (by norm_num : (0 : Nat) < 128)]
        calc n < 2 ^ (w - p) := hn
          _ = 2 ^ (w - (p + 7)) * 128 := by
              rw [show (128 : Nat) = 2 ^ 7 by norm_num, ← Nat.pow_add]
              congr 1
              omega
      simp only [List.cons_append, List.nil_append, List.append_eq, varNumReadCore,
        hmod, hcont, hshift (n % 128) hm128,
        or_mul_two_pow_eq_add value (n % 128) p hv]
      rw [if_neg (show ¬(128 : Nat) = 0 by norm_num), if_neg (show ¬p + 7 ≥ w by omega)]
      rw [ih (n / 128) (Nat.div_lt_self (by omega) (by norm_num)) (p + 7)
        (value + n % 128 * 2 ^ p) rest hdiv (by omega) hvalue']
      congr 2
      have hd := Nat.div_add_mod n 128
      calc value + n % 128 * 2 ^ p + n / 128 * 2 ^ (p + 7)
          = value + (n % 128 + n / 128 * 2 ^ 7) * 2 ^ p := by
            rw [Nat.pow_add]
            ring
        _ = value + n * 2 ^ p := by
            congr 2
            norm_num
            omega

/-- Reinterpreting the 32-bit pattern of an in-range `i32` recovers it. -/
lemma toSigned32_toUnsigned32 (v : Int) (h1 : -2 ^ 31 ≤ v) (h2 : v < 2 ^ 31) :
    toSigned 32 (toUnsigned 32 v) = v := by
  simp only [toSigned, toUnsigned]
  norm_num at *
  split_ifs with h <;> omega

/-- Reinterpreting the 64-bit pattern of an in-range `i64` recovers it. -/
lemma toSigned64_toUnsigned64 (v : Int) (h1 : -2 ^ 63 ≤ v) (h2 : v < 2 ^ 63) :
    toSigned 64 (toUnsigned 64 v) = v := by
  simp only [toSigned, toUnsigned]
  norm_num at *
  split_ifs with h <;> omega

lemma toUnsigned_lt (w : Nat) (v : Int) : toUnsigned w v < 2 ^ w := by
  have hpos : (0 : Int) < 2 ^ w := by positivity
  have h1 := Int.emod_lt_of_pos v hpos
  have h2 := Int.emod_nonneg v (ne_of_gt hpos)
  have hcast : ((2 ^ w : Nat) : Int) = (2 : Int) ^ w := by push_cast; rfl
  simp only [toUnsigned]
  omega

/-- `VarInt` round trip with an arbitrary tail: decoding consumes exactly
the written bytes and leaves the rest. -/
lemma varIntRead_write (v : Int) (h1 : -2 ^ 31 ≤ v) (h2 : v < 2 ^ 31)
    (rest : List Nat) : varIntRead (varIntWrite v ++ rest) = (.ok v, rest) := by
  have hcore := varNumReadCore_write 32 (by norm_num) (toUnsigned 32 v) 0 0 rest
    (by simpa using toUnsigned_lt 32 v) (by norm_num) (by norm_num)
  simp only [Nat.pow_zero, Nat.mul_one, Nat.zero_add] at hcore
  simp only [varIntRead, varIntWrite, hcore]
  rw [toSigned32_toUnsigned32 v h1 h2]

/-- C1: for every in-range 32-bit signed integer `v`, decoding the bytes
produced by `VarInt`'s encode of `v` yields `v` back, consuming exactly
those bytes; likewise for every 64-bit signed integer through `VarLong`. -/
theorem varnum_roundtrip (v : Int) :
    (-2 ^ 31 ≤ v → v < 2 ^ 31 → varIntRead (varIntWrite v) = (.ok v, [])) ∧
    (-2 ^ 63 ≤ v → v < 2 ^ 63 → varLongRead (varLongWrite v) = (.ok v, [])) := by
  constructor
  · intro h1 h2
    have hcore := varNumReadCore_write 32 (by norm_num) (toUnsigned 32 v) 0 0 []
      (by simpa using toUnsigned_lt 32 v) (by norm_num) (by norm_num)
    simp only [List.append_nil, Nat.pow_zero, Nat.mul_one, Nat.zero_add] at hcore
    simp only [varIntRead, varIntWrite, hcore]
    rw [toSigned32_toUnsigned32 v h1 h2]
  · intro h1 h2
    have hcore := varNumReadCore_write 64 (by norm_num) (toUnsigned 64 v) 0 0 []
      (by simpa using toUnsigned_lt 64 v) (by norm_num) (by norm_num)
    simp only [List.append_nil, Nat.pow_zero, Nat.mul_one, Nat.zero_add] at hcore
    simp only [varLongRead, varLongWrite, hcore]
    rw [toSigned64_toUnsigned64 v h1 h2]

/-- Witness for `varnum_roundtrip` at `v = -1`. -/
theorem varnum_roundtrip_witness :
    varIntRead (varIntWrite (-1)) = (.ok (-1), []) ∧
    varLongRead (varLongWrite (-1)) = (.ok (-1), []) :=
  ⟨(varnum_roundtrip (-1)).1 (by norm_num) (by norm_num),
   (varnum_roundtrip (-1)).2 (by norm_num) (by norm_num)⟩

/-! ## The malformed-var-num error -/

/-- The var-num read loop reports `BadVarNum` exactly when the input's next
`(w - p + 6) / 7` bytes exist and all carry the continuation bit `0x80`. -/
lemma varNumReadCore_badVarNum_iff (w : Nat) :
    ∀ (input : List Nat) (value p : Nat), p < w →
    ((varNumReadCore w value p input).1 = .error .BadVarNum ↔
      ((w - p + 6) / 7 ≤ input.length ∧
        ∀ b ∈ input.take ((w - p + 6) / 7), b &&& 0x80 ≠ 0)) := by
  intro input
  induction input with
  | nil =>
    intro value p hp
    simp only [varNumReadCore, List.length_nil, List.take_nil]
    constructor
    · intro hc
      simp at hc
    · rintro ⟨hlen, -⟩
      omega
  | cons b rest ih =>
    intro value p hp
    have hk : 1 ≤ (w - p + 6) / 7 := by omega
    simp only [varNumReadCore]
    by_cases hb : b &&& 0x80 = 0
    · rw [if_pos hb]
      constructor
      · intro hc
        simp at hc
      · rintro ⟨hlen, hall⟩
        have hbmem : b ∈ (b :: rest).take ((w - p + 6) / 7) := by
          have hsplit : (w - p + 6) / 7 = ((w - p + 6) / 7 - 1) + 1 := by omega
          rw [hsplit, List.take_succ_cons]
          exact List.mem_cons_self _ _
        exact (hall b hbmem hb).elim
    · rw [if_neg hb]
      by_cases hpw : p + 7 ≥ w
      · rw [if_pos hpw]
        have hk1 : (w - p + 6) / 7 = 0 + 1 := by omega
        rw [hk1, List.take_succ_cons, List.take_zero]
        simp [hb]
      · rw [if_neg hpw]
        rw [ih _ (p + 7) (by omega)]
        have hk2 : (w - p + 6) / 7 = (w - (p + 7) + 6) / 7 + 1 := by omega
        rw [hk2, List.take_succ_cons]
        simp only [List.length_cons, List.forall_mem_cons]
        constructor
        · rintro ⟨hlen, hall⟩
          exact ⟨by omega, hb, hall⟩
        · rintro ⟨hlen, -, hall⟩
          exact ⟨by omega, hall⟩

/-- `VarInt::read` fails with a given error iff the underlying var-num loop
does (the final `i32::from` reinterpretation preserves failures). -/
lemma varIntRead_fst_error (input : List Nat) (e : ReadError) :
    (varIntRead input).1 = .error e ↔ (varNumReadCore 32 0 0 input).1 = .error e := by
  rcases hcore : varNumReadCore 32 0 0 input with ⟨res, rest⟩
  cases res <;> simp [varIntRead, hcore]

/-- `VarLong::read` fails with a given error iff the underlying var-num
loop does. -/
lemma varLongRead_fst_error (input : List Nat) (e : ReadError) :
    (varLongRead input).1 = .error e ↔ (varNumReadCore 64 0 0 input).1 = .error e := by
  rcases hcore : varNumReadCore 64 0 0 input with ⟨res, rest⟩
  cases res <;> simp [varLongRead, hcore]

/-- C2: `VarInt` decode fails with `BadVarNum` exactly when the first 5
bytes exist and all carry the continuation bit; `VarLong` likewise with 10
bytes.  In particular sequences whose terminating byte occurs within the
first 5 (resp. 10) groups are never rejected for length. -/
theorem varnum_badvarnum_iff (input : List Nat) :
    ((varIntRead input).1 = .error .BadVarNum ↔
      5 ≤ input.length ∧ ∀ b ∈ input.take 5, b &&& 0x80 ≠ 0) ∧
    ((varLongRead input).1 = .error .BadVarNum ↔
      10 ≤ input.length ∧ ∀ b ∈ input.take 10, b &&& 0x80 ≠ 0) := by
  have h32 := varNumReadCore_badVarNum_iff 32 input 0 0 (by norm_num)
  have h64 := varNumReadCore_badVarNum_iff 64 input 0 0 (by norm_num)
  norm_num at h32 h64
  exact ⟨(varIntRead_fst_error input .BadVarNum).trans h32,
    (varLongRead_fst_error input .BadVarNum).trans h64⟩

/-- Witness for `varnum_badvarnum_iff`: five continuation bytes trigger
`BadVarNum` for `VarInt`; four do not (the queue runs dry instead). -/
theorem varnum_badvarnum_iff_witness :
    (varIntRead [0xff, 0xff, 0xff, 0xff, 0xff]).1 = .error .BadVarNum ∧
    ¬(varIntRead [0xff, 0xff, 0xff, 0xff]).1 = .error .BadVarNum :=
  ⟨(varnum_badvarnum_iff [0xff, 0xff, 0xff, 0xff, 0xff]).1.mpr (by decide),
   fun hc => by
    have h := (varnum_badvarnum_iff [0xff, 0xff, 0xff, 0xff]).1.mp hc
    simp at h⟩

/-- C3: the concrete `VarInt`/`VarLong` encodings fixed by the protocol:
`VarInt(0) = [0x00]`, `VarInt(2097151) = [0xFF,0xFF,0x7F]`,
`VarInt(-1) = [0xFF,0xFF,0xFF,0xFF,0x0F]`, `VarLong(-1) = [0xFF × 9, 0x01]`
and `VarLong(2147483647) = [0xFF,0xFF,0xFF,0xFF,0x07]`. -/
theorem varnum_concrete_encodings :
    varIntWrite 0 = [0x00] ∧
    varIntWrite 2097151 = [0xff, 0xff, 0x7f] ∧
    varIntWrite (-1) = [0xff, 0xff, 0xff, 0xff, 0x0f] ∧
    varLongWrite (-1) = [0xff, 0xff, 0xff, 0xff, 0xff, 0xff, 0xff, 0xff, 0xff, 0x01] ∧
    varLongWrite 2147483647 = [0xff, 0xff, 0xff, 0xff, 0x07] := by
  refine ⟨?_, ?_, ?_, ?_, ?_⟩
  · rw [varIntWrite,
      varNumWriteCore_eq_fuel 32 (by norm_num) 5 _ (by decide) (by decide) (by decide)]
    decide
  · rw [varIntWrite,
      varNumWriteCore_eq_fuel 32 (by norm_num) 5 _ (by decide) (by decide) (by decide)]
    decide
  · rw [varIntWrite,
      varNumWriteCore_eq_fuel 32 (by norm_num) 5 _ (by decide) (by decide) (by decide)]
    decide
  · rw [varLongWrite,
      varNumWriteCore_eq_fuel 64 (by norm_num) 10 _ (by decide) (by decide) (by decide)]
    decide
  · rw [varLongWrite,
      varNumWriteCore_eq_fuel 64 (by norm_num) 10 _ (by decide) (by decide) (by decide)]
    decide

/-! ## Strings -/

/-- Whether a byte is a UTF-8 continuation byte (`0x80..=0xBF`). -/
def isUtf8Cont (b : Nat) : Bool := 0x80 ≤ b && b ≤ 0xbf

/-- Modelled from the spec: `std::str::from_utf8` is external library code
("validates UTF-8; invalid UTF-8 is a read failure"); this is the standard
RFC 3629 UTF-8 validity check it performs. -/
def isValidUtf8 : List Nat → Bool
  | [] => true
  | b :: rest =>
    if b ≤ 0x7f then isValidUtf8 rest
    else
      match rest with
      | [] => false
      | c1 :: rest1 =>
        if 0xc2 ≤ b && b ≤ 0xdf then isUtf8Cont c1 && isValidUtf8 rest1
        else
          match rest1 with
          | [] => false
          | c2 :: rest2 =>
            if b == 0xe0 then
              (0xa0 ≤ c1 && c1 ≤ 0xbf) && isUtf8Cont c2 && isValidUtf8 rest2
            else if (0xe1 ≤ b && b ≤ 0xec) || b == 0xee || b == 0xef then
              isUtf8Cont c1 && isUtf8Cont c2 && isValidUtf8 rest2
            else if b == 0xed then
              (0x80 ≤ c1 && c1 ≤ 0x9f) && isUtf8Cont c2 && isValidUtf8 rest2
            else
              match rest2 with
              | [] => false
              | c3 :: rest3 =>
                if b == 0xf0 then
                  (0x90 ≤ c1 && c1 ≤ 0xbf) && isUtf8Cont c2 && isUtf8Cont c3 &&
                    isValidUtf8 rest3
                else if 0xf1 ≤ b && b ≤ 0xf3 then
                  isUtf8Cont c1 && isUtf8Cont c2 && isUtf8Cont c3 && isValidUtf8 rest3
                else if b == 0xf4 then
                  (0x80 ≤ c1 && c1 ≤ 0x8f) && isUtf8Cont c2 && isUtf8Cont c3 &&
                    isValidUtf8 rest3
                else false

/-- `STRING_LIMIT` (`protocol.rs` line 273). -/
def STRING_LIMIT : Int := 32767

/-- `CHAT_LIMIT` (`protocol.rs` line 274). -/
def CHAT_LIMIT : Int := 262144

/-- `length as usize` on an `i32` length, for a 64-bit target: sign-extend
to 64 bits and reinterpret as unsigned. -/
def usizeOfInt (v : Int) : Nat := toUnsigned 64 v

/-- `read_string_with_limit` (`protocol.rs` lines 276–286): read a VarInt
length, fail with `BadStringLimit(limit)` when `length > limit`, otherwise
take `length as usize` bytes and validate UTF-8 (the `Vec::with_capacity`
allocation is not observable here).  The decoded Rust `String` is
represented by its UTF-8 byte list. -/
def read_string_with_limit (input : List Nat) (limit : Int) :
    Except ReadError (List Nat) × List Nat :=
  match varIntRead input with
  | (.error e, rest) => (.error e, rest)
  | (.ok length, rest) =>
    if length > limit then (.error (.BadStringLimit limit), rest)
    else
      match takeN (usizeOfInt length) rest with
      | (.error e, rest2) => (.error e, rest2)
      | (.ok bytes, rest2) =>
        if isValidUtf8 bytes then (.ok bytes, rest2) else (.error .BadUtf8, rest2)

/-- `String::read` is `read_string_with_limit(input, STRING_LIMIT)`. -/
def stringRead (input : List Nat) : Except ReadError (List Nat) × List Nat :=
  read_string_with_limit input STRING_LIMIT

/-- `ComponentType::read` (`protocol.rs` lines 317–323): read a string with
the chat limit, then parse it with the external `serde_json` parser, taken
here as a parameter. -/
def componentTypeRead {α : Type} (parse : List Nat → Except ReadError α)
    (input : List Nat) : Except ReadError α × List Nat :=
  match read_string_with_limit input CHAT_LIMIT with
  | (.error e, rest) => (.error e, rest)
  | (.ok s, rest) =>
    match parse s with
    | .error e => (.error e, rest)
    | .ok v => (.ok v, rest)

/-- C5: when the decoded VarInt length prefix exceeds 32767, `String`
decode fails with the limit error (and likewise the chat-component reader
at 262144), regardless of how many bytes remain, leaving the queue exactly
after the length prefix. -/
theorem string_limit_error (input : List Nat) (len : Int) (rest : List Nat)
    (hread : varIntRead input = (.ok len, rest)) :
    (len > 32767 → stringRead input = (.error (.BadStringLimit 32767), rest)) ∧
    (len > 262144 → ∀ {α : Type} (parse : List Nat → Except ReadError α),
      componentTypeRead parse input = (.error (.BadStringLimit 262144), rest)) := by
  constructor
  · intro hlen
    simp only [stringRead, read_string_with_limit, hread, STRING_LIMIT]
    rw [if_pos hlen]
  · intro hlen α parse
    simp only [componentTypeRead, read_string_with_limit, hread, CHAT_LIMIT]
    rw [if_pos hlen]

/-- Witness for `string_limit_error`: length prefixes 32768 and 262145. -/
theorem string_limit_error_witness :
    stringRead [0x80, 0x80, 0x02] = (.error (.BadStringLimit 32767), []) ∧
    componentTypeRead (fun _ => (.ok () : Except ReadError Unit)) [0x81, 0x80, 0x10]
      = (.error (.BadStringLimit 262144), []) := by
  constructor
  · exact (string_limit_error [0x80, 0x80, 0x02] 32768 [] (by decide)).1 (by norm_num)
  · exact (string_limit_error [0x81, 0x80, 0x10] 262145 [] (by decide)).2 (by norm_num) _

/-- C10: a negative decoded length passes the `length > limit` check, and
`length as usize` becomes a huge unsigned count, so the decode never
returns the limit error; when the queue holds fewer than that many bytes
the failure is the byte-queue error. -/
theorem string_negative_length (input : List Nat) (len : Int) (rest : List Nat)
    (limit : Int) (hlimit : 0 ≤ limit)
    (hread : varIntRead input = (.ok len, rest)) (hneg : len < 0) :
    (∀ l, (read_string_with_limit input limit).1 ≠ .error (.BadStringLimit l)) ∧
    (rest.length < usizeOfInt len →
      read_string_with_limit input limit = (.error .InputQueue, rest)) := by
  have hnotgt : ¬len > limit := by omega
  constructor
  · intro l
    simp only [read_string_with_limit, hread]
    rw [if_neg hnotgt]
    by_cases htk : usizeOfInt len ≤ rest.length
    · simp only [takeN, if_pos htk]
      by_cases hu : isValidUtf8 (rest.take (usizeOfInt len))
      · simp [hu]
      · simp [hu]
    · simp only [takeN, if_neg htk]
      simp
  · intro hlt
    simp only [read_string_with_limit, hread]
    rw [if_neg hnotgt]
    have htake : takeN (usizeOfInt len) rest = (.error .InputQueue, rest) := by
      simp only [takeN]
      rw [if_neg (by omega)]
    simp [htake]

/-- Witness for `string_negative_length`: prefix `VarInt(-1)`, empty rest. -/
theorem string_negative_length_witness :
    (∀ l, (read_string_with_limit [0xff, 0xff, 0xff, 0xff, 0x0f] 32767).1
        ≠ .error (.BadStringLimit l)) ∧
    read_string_with_limit [0xff, 0xff, 0xff, 0xff, 0x0f] 32767
      = (.error .InputQueue, []) := by
  have h := string_negative_length [0xff, 0xff, 0xff, 0xff, 0x0f] (-1) [] 32767
    (by norm_num) (by decide) (by norm_num)
  exact ⟨h.1, h.2 (by decide)⟩

/-! ## Fixed-width little-endian integers and `BlockPosition` -/

/-- `to_le_bytes` of a `k`-byte unsigned bit pattern: least significant
byte first (`protocol_num_type!` writes `self.to_le_bytes()`). -/
def leBytes : Nat → Nat → List Nat
  | 0, _ => []
  | k + 1, n => (n % 256) :: leBytes k (n / 256)

/-- `from_le_bytes`: recombine little-endian bytes into the bit pattern. -/
def leNum : List Nat → Nat
  | [] => 0
  | b :: rest => b + 256 * leNum rest

/-- `u64::read` (`protocol_num_type!`): take 8 bytes, `from_le_bytes`. -/
def u64Read (input : List Nat) : Except ReadError Nat × List Nat :=
  match takeN 8 input with
  | (.error e, rest) => (.error e, rest)
  | (.ok bytes, rest) => (.ok (leNum bytes), rest)

lemma leBytes_length (k : Nat) : ∀ n, (leBytes k n).length = k := by
  induction k with
  | zero => intro n; rfl
  | succ k ih => intro n; simp [leBytes, ih]

lemma leNum_leBytes (k : Nat) : ∀ n, leNum (leBytes k n) = n % 2 ^ (8 * k) := by
  induction k with
  | zero =>
    intro n
    simp [leBytes, leNum]
    omega
  | succ k ih =>
    intro n
    simp only [leBytes, leNum, ih]
    have h1 : (2 : Nat) ^ (8 * (k + 1)) = 256 * 2 ^ (8 * k) := by
      rw [show 8 * (k + 1) = 8 + 8 * k by ring, Nat.pow_add]
    rw [h1, Nat.mod_mul]

lemma u64Read_leBytes (n : Nat) (hn : n < 2 ^ 64) (rest : List Nat) :
    u64Read (leBytes 8 n ++ rest) = (.ok n, rest) := by
  have hlen : (leBytes 8 n).length = 8 := leBytes_length 8 n
  have hle : 8 ≤ (leBytes 8 n ++ rest).length := by
    simp [hlen]
  have htake : (leBytes 8 n ++ rest).take 8 = leBytes 8 n := List.take_left' hlen
  have hdrop : (leBytes 8 n ++ rest).drop 8 = rest := List.drop_left' hlen
  simp only [u64Read, takeN, if_pos hle, htake, hdrop, leNum_leBytes]
  congr 2
  norm_num
  omega

/-- The field masks of `BlockPosition` (`protocol.rs` lines 334–336). -/
def BLOCK_X_MASK : Nat := 0x3ffffff
def BLOCK_Z_MASK : Nat := BLOCK_X_MASK
def BLOCK_Y_MASK : Nat := 0xfff

/-- The negative bounds of `BlockPosition` (`protocol.rs` lines 338–340:
`1 << 25` and `1 << 11`). -/
def BLOCK_X_NEG_BOUND : Int := 2 ^ 25
def BLOCK_Z_NEG_BOUND : Int := BLOCK_X_NEG_BOUND
def BLOCK_Y_NEG_BOUND : Int := 2 ^ 11

/-- `BlockPosition::write` (`protocol.rs` lines 362–372): pack the three
coordinates (as 64-bit patterns) into
`((x & X_MASK) << 38) | ((z & Z_MASK) << 12) | (y & Y_MASK)` and write the
result as a little-endian 64-bit integer. -/
def blockPositionWrite (x y z : Int) : List Nat :=
  leBytes 8 ((((toUnsigned 64 x &&& BLOCK_X_MASK) <<< 38) |||
    ((toUnsigned 64 z &&& BLOCK_Z_MASK) <<< 12)) |||
    (toUnsigned 64 y &&& BLOCK_Y_MASK))

/-- `BlockPosition::read` (`protocol.rs` lines 342–360): read one 64-bit
value, extract x (bits 38–63), z (bits 12–37), y (bits 0–11) as `i32`s,
and sign-extend each by subtracting twice its negative bound when the raw
field is at or above the bound.  The result is the `(x, y, z)` triple (the
argument order of `BlockPosition::new`). -/
def blockPositionRead (input : List Nat) :
    Except ReadError (Int × Int × Int) × List Nat :=
  match u64Read input with
  | (.error e, rest) => (.error e, rest)
  | (.ok val, rest) =>
    let x0 := toSigned 32 ((val >>> 38) % 2 ^ 32)
    let z0 := toSigned 32 (((val >>> 12) &&& BLOCK_Z_MASK) % 2 ^ 32)
    let y0 := toSigned 32 ((val &&& BLOCK_Y_MASK) % 2 ^ 32)
    let x := if x0 ≥ BLOCK_X_NEG_BOUND then x0 - BLOCK_X_NEG_BOUND * 2 else x0
    let z := if z0 ≥ BLOCK_Z_NEG_BOUND then z0 - BLOCK_Z_NEG_BOUND * 2 else z0
    let y := if y0 ≥ BLOCK_Y_NEG_BOUND then y0 - BLOCK_Y_NEG_BOUND * 2 else y0
    (.ok (x, y, z), rest)

/-- Packing three in-range fields is plain positional arithmetic. -/
lemma pack_eq_add (mx mz my : Nat) (_hx : mx < 2 ^ 26) (hz : mz < 2 ^ 26)
    (hy : my < 2 ^ 12) :
    ((mx <<< 38) ||| (mz <<< 12)) ||| my = mx * 2 ^ 38 + mz * 2 ^ 12 + my := by
  rw [Nat.shiftLeft_eq, Nat.shiftLeft_eq]
  have hzlt : mz * 2 ^ 12 < 2 ^ 38 := by
    have := Nat.mul_le_mul_right (2 ^ 12) (show mz ≤ 2 ^ 26 - 1 by omega)
    norm_num at this
    omega
  have h1 : mx * 2 ^ 38 ||| mz * 2 ^ 12 = mx * 2 ^ 38 + mz * 2 ^ 12 := by
    rw [Nat.mul_comm mx, ← Nat.mul_add_lt_is_or hzlt mx, Nat.mul_comm]
  rw [h1]
  have h2 : mx * 2 ^ 38 + mz * 2 ^ 12 = 2 ^ 12 * (mx * 2 ^ 26 + mz) := by ring
  rw [h2, ← Nat.mul_add_lt_is_or hy, ← h2]

/-- Decoding a packed 26-bit field: truncate to `i32`, then sign-extend by
subtracting `2^26` when at or above `2^25`; recovers any in-range value. -/
lemma signext26 (c : Int) (m : Nat) (hm : m = toUnsigned 64 c % 2 ^ 26)
    (h1 : -2 ^ 25 ≤ c) (h2 : c < 2 ^ 25) :
    (if toSigned 32 (m % 2 ^ 32) ≥ BLOCK_X_NEG_BOUND
     then toSigned 32 (m % 2 ^ 32) - BLOCK_X_NEG_BOUND * 2
     else toSigned 32 (m % 2 ^ 32)) = c := by
  subst hm
  simp only [toSigned, toUnsigned, BLOCK_X_NEG_BOUND]
  norm_num at *
  split_ifs <;> omega

/-- Decoding the packed 12-bit field, with bound `2^11`. -/
lemma signext12 (c : Int) (m : Nat) (hm : m = toUnsigned 64 c % 2 ^ 12)
    (h1 : -2 ^ 11 ≤ c) (h2 : c < 2 ^ 11) :
    (if toSigned 32 (m % 2 ^ 32) ≥ BLOCK_Y_NEG_BOUND
     then toSigned 32 (m % 2 ^ 32) - BLOCK_Y_NEG_BOUND * 2
     else toSigned 32 (m % 2 ^ 32)) = c := by
  subst hm
  simp only [toSigned, toUnsigned, BLOCK_Y_NEG_BOUND]
  norm_num at *
  split_ifs <;> omega

/-- C8: every `BlockPosition` whose `x`/`z` lie in the signed 26-bit range
and whose `y` lies in the signed 12-bit range round-trips exactly through
the packed 64-bit wire value. -/
theorem blockposition_roundtrip (x y z : Int)
    (hx1 : -2 ^ 25 ≤ x) (hx2 : x < 2 ^ 25)
    (hy1 : -2 ^ 11 ≤ y) (hy2 : y < 2 ^ 11)
    (hz1 : -2 ^ 25 ≤ z) (hz2 : z < 2 ^ 25) :
    blockPositionRead (blockPositionWrite x y z) = (.ok (x, y, z), []) := by
  have hmask26 : (BLOCK_X_MASK : Nat) = 2 ^ 26 - 1 := by norm_num [BLOCK_X_MASK]
  have hmaskz : (BLOCK_Z_MASK : Nat) = 2 ^ 26 - 1 := hmask26
  have hmask12 : (BLOCK_Y_MASK : Nat) = 2 ^ 12 - 1 := by norm_num [BLOCK_Y_MASK]
  have hxm : toUnsigned 64 x &&& BLOCK_X_MASK = toUnsigned 64 x % 2 ^ 26 := by
    rw [hmask26, Nat.and_pow_two_sub_one_eq_mod]
  have hzm : toUnsigned 64 z &&& BLOCK_Z_MASK = toUnsigned 64 z % 2 ^ 26 := by
    rw [hmaskz, Nat.and_pow_two_sub_one_eq_mod]
  have hym : toUnsigned 64 y &&& BLOCK_Y_MASK = toUnsigned 64 y % 2 ^ 12 := by
    rw [hmask12, Nat.and_pow_two_sub_one_eq_mod]
  set mx := toUnsigned 64 x % 2 ^ 26 with hmx
  set mz := toUnsigned 64 z % 2 ^ 26 with hmz
  set my := toUnsigned 64 y % 2 ^ 12 with hmy
  have hmxlt : mx < 2 ^ 26 := Nat.mod_lt _ (by norm_num)
  have hmzlt : mz < 2 ^ 26 := Nat.mod_lt _ (by norm_num)
  have hmylt : my < 2 ^ 12 := Nat.mod_lt _ (by norm_num)
  have hzb : mz * 2 ^ 12 ≤ (2 ^ 26 - 1) * 2 ^ 12 :=
    Nat.mul_le_mul_right _ (by omega)
  have hxb : mx * 2 ^ 38 ≤ (2 ^ 26 - 1) * 2 ^ 38 :=
    Nat.mul_le_mul_right _ (by omega)
  have hlt : mx * 2 ^ 38 + mz * 2 ^ 12 + my < 2 ^ 64 := by
    norm_num at hxb hzb ⊢
    omega
  have hwrite : blockPositionWrite x y z =
      leBytes 8 (mx * 2 ^ 38 + mz * 2 ^ 12 + my) := by
    simp only [blockPositionWrite, hxm, hzm, hym]
    rw [pack_eq_add mx mz my hmxlt hmzlt hmylt]
  have hdx : (mx * 2 ^ 38 + mz * 2 ^ 12 + my) >>> 38 = mx := by
    rw [Nat.shiftRight_eq_div_pow]
    have hr : mz * 2 ^ 12 + my < 2 ^ 38 := by
      norm_num at hzb ⊢
      omega
    rw [Nat.add_assoc, Nat.mul_comm mx, Nat.add_comm,
      Nat.add_mul_div_left _ _ (by norm_num : (0 : Nat) < 2 ^ 38),
      Nat.div_eq_of_lt hr, Nat.zero_add]
  have hsplit : mx * 2 ^ 38 + mz * 2 ^ 12 + my = my + 2 ^ 12 * (mx * 2 ^ 26 + mz) := by
    ring
  have hdz : ((mx * 2 ^ 38 + mz * 2 ^ 12 + my) >>> 12) &&& BLOCK_Z_MASK = mz := by
    rw [hmaskz, Nat.and_pow_two_sub_one_eq_mod, Nat.shiftRight_eq_div_pow, hsplit,
      Nat.add_mul_div_left _ _ (by norm_num : (0 : Nat) < 2 ^ 12),
      Nat.div_eq_of_lt hmylt, Nat.zero_add, Nat.mul_comm mx, Nat.add_comm,
      Nat.add_mul_mod_self_left, Nat.mod_eq_of_lt hmzlt]
  have hdy : (mx * 2 ^ 38 + mz * 2 ^ 12 + my) &&& BLOCK_Y_MASK = my := by
    rw [hmask12, Nat.and_pow_two_sub_one_eq_mod, hsplit, Nat.add_mul_mod_self_left,
      Nat.mod_eq_of_lt hmylt]
  have hread : u64Read (leBytes 8 (mx * 2 ^ 38 + mz * 2 ^ 12 + my)) =
      (.ok (mx * 2 ^ 38 + mz * 2 ^ 12 + my), []) := by
    have h := u64Read_leBytes _ hlt []
    rwa [List.append_nil] at h
  rw [hwrite]
  simp only [blockPositionRead, hread, hdx, hdz, hdy, BLOCK_Z_NEG_BOUND]
  rw [signext26 x mx hmx hx1 hx2, signext26 z mz hmz hz1 hz2,
    signext12 y my hmy hy1 hy2]

/-! ## Arrays -/

/-- `u8::read`: take one byte from the queue. -/
def u8Read (input : List Nat) : Except ReadError Nat × List Nat := takeByte input

/-- `u8::write`: put one byte. -/
def u8Write (b : Nat) : List Nat := [b]

/-- The element loop shared by both array writers
(`for element in &self.result { element.write(output)? }`): each element's
encoding, back to back. -/
def writeElements {α : Type} (writeElem : α → List Nat) : List α → List Nat
  | [] => []
  | a :: as => writeElem a ++ writeElements writeElem as

/-- `RemainingBytesArray::write` (`protocol.rs` lines 439–446). -/
def remainingBytesWrite {α : Type} (writeElem : α → List Nat) (xs : List α) :
    List Nat :=
  writeElements writeElem xs

/-- The `RemainingBytesArray::read` loop (`protocol.rs` lines 427–437):
`while input.has_bytes(1)` (spec §6: at least one byte remains), decode one
element per iteration.  The loop is modelled with fuel; any fuel of at
least `input.length + 1` is sufficient whenever every successful element
read from a nonempty queue consumes at least one byte (true of every codec
in this file), so the fuel-exhaustion branch is unreachable for them. -/
def remainingBytesReadLoop {α : Type}
    (readElem : List Nat → Except ReadError α × List Nat) :
    Nat → List Nat → Except ReadError (List α) × List Nat
  | 0, input => (.error .InputQueue, input)
  | fuel + 1, input =>
    if 1 ≤ input.length then
      match readElem input with
      | (.error e, rest) => (.error e, rest)
      | (.ok a, rest) =>
        match remainingBytesReadLoop readElem fuel rest with
        | (.error e, rest2) => (.error e, rest2)
        | (.ok as, rest2) => (.ok (a :: as), rest2)
    else (.ok [], input)

/-- `RemainingBytesArray::read`, with sufficient fuel. -/
def remainingBytesRead {α : Type}
    (readElem : List Nat → Except ReadError α × List Nat) (input : List Nat) :
    Except ReadError (List α) × List Nat :=
  remainingBytesReadLoop readElem (input.length + 1) input

/-- C6: `RemainingBytesArray` decode loops while at least one byte remains
and stops exactly on the empty queue — decoding the byte queue
`[32, 233, 211]` yields `[32, 233, 211]` with the queue left empty, and the
empty queue yields the empty sequence — while encode writes each element's
encoding back to back, with no count or terminator. -/
theorem remaining_bytes_array_spec :
    remainingBytesRead u8Read [32, 233, 211] = (.ok [32, 233, 211], []) ∧
    remainingBytesRead u8Read ([] : List Nat) = (.ok ([] : List Nat), []) ∧
    ∀ (α : Type) (writeElem : α → List Nat) (xs : List α),
      remainingBytesWrite writeElem xs = (xs.map writeElem).flatten := by
  refine ⟨by decide, by decide, ?_⟩
  intro α writeElem xs
  induction xs with
  | nil => rfl
  | cons a as ih =>
    simp only [remainingBytesWrite, writeElements, List.map_cons, List.flatten_cons] at ih ⊢
    rw [ih]

/-- `i16::write` (`protocol_num_type!`): two little-endian bytes of the
16-bit pattern. -/
def i16Write (v : Int) : List Nat := leBytes 2 (toUnsigned 16 v)

/-- `i16::read`: take two bytes, `from_le_bytes`, reinterpret signed. -/
def i16Read (input : List Nat) : Except ReadError Int × List Nat :=
  match takeN 2 input with
  | (.error e, rest) => (.error e, rest)
  | (.ok bytes, rest) => (.ok (toSigned 16 (leNum bytes)), rest)

/-- `<i16 as SizeNumber>::new_from_size(len)` followed by its write:
`len as i16`, written little-endian (`primitive_size_number!` and
`protocol_num_type!`). -/
def i16SizeWrite (len : Nat) : List Nat := i16Write (toSigned 16 (len % 2 ^ 16))

/-- The element loop of `LengthProvidedArray::read`: decode exactly `n`
elements in order. -/
def readN {α : Type} (readElem : List Nat → Except ReadError α × List Nat) :
    Nat → List Nat → Except ReadError (List α) × List Nat
  | 0, input => (.ok [], input)
  | n + 1, input =>
    match readElem input with
    | (.error e, rest) => (.error e, rest)
    | (.ok a, rest) =>
      match readN readElem n rest with
      | (.error e, rest2) => (.error e, rest2)
      | (.ok as, rest2) => (.ok (a :: as), rest2)

/-- `LengthProvidedArray::read` (`protocol.rs` lines 499–508): decode the
size-number, convert it via `as_size`, then decode exactly that many
elements. -/
def lengthProvidedArrayRead {α : Type}
    (readSize : List Nat → Except ReadError Int × List Nat) (asSize : Int → Nat)
    (readElem : List Nat → Except ReadError α × List Nat) (input : List Nat) :
    Except ReadError (List α) × List Nat :=
  match readSize input with
  | (.error e, rest) => (.error e, rest)
  | (.ok sz, rest) => readN readElem (asSize sz) rest

/-- `LengthProvidedArray::write` (`protocol.rs` lines 510–518): write
`L::new_from_size(self.result.len())`, then each element in order. -/
def lengthProvidedArrayWrite {α : Type} (writeSize : Nat → List Nat)
    (writeElem : α → List Nat) (xs : List α) : List Nat :=
  writeSize xs.length ++ writeElements writeElem xs

/-- Reading back exactly the written elements, given that each member's
encoding round-trips with any tail. -/
lemma readN_writeElements {α : Type}
    (readElem : List Nat → Except ReadError α × List Nat)
    (writeElem : α → List Nat) :
    ∀ (xs : List α) (rest : List Nat),
      (∀ a ∈ xs, ∀ r, readElem (writeElem a ++ r) = (.ok a, r)) →
      readN readElem xs.length (writeElements writeElem xs ++ rest) =
        (.ok xs, rest) := by
  intro xs
  induction xs with
  | nil =>
    intro rest _
    rfl
  | cons a as ih =>
    intro rest h
    rw [List.forall_mem_cons] at h
    simp only [writeElements, List.length_cons, List.append_assoc, readN,
      h.1 (writeElements writeElem as ++ rest), ih rest h.2]

/-- `readN` decodes exactly `n` elements when it succeeds. -/
lemma readN_length {α : Type}
    (readElem : List Nat → Except ReadError α × List Nat) :
    ∀ (n : Nat) (input : List Nat) (res : List α) (rest : List Nat),
      readN readElem n input = (.ok res, rest) → res.length = n := by
  intro n
  induction n with
  | zero =>
    intro input res rest h
    simp only [readN, Prod.mk.injEq, Except.ok.injEq] at h
    rw [← h.1]
    rfl
  | succ n ih =>
    intro input res rest h
    simp only [readN] at h
    rcases he : readElem input with ⟨r1, rest1⟩
    rw [he] at h
    cases r1 with
    | error e => simp at h
    | ok a =>
      dsimp only at h
      rcases hr : readN readElem n rest1 with ⟨r2, rest2⟩
      rw [hr] at h
      cases r2 with
      | error e => simp at h
      | ok as =>
        simp only [Prod.mk.injEq, Except.ok.injEq] at h
        rw [← h.1, List.length_cons, ih rest1 as rest2 hr]

/-- Unfolding `LengthProvidedArray::read` on a successful size read. -/
lemma lengthProvidedArrayRead_ok {α : Type}
    (readSize : List Nat → Except ReadError Int × List Nat) (asSize : Int → Nat)
    (readElem : List Nat → Except ReadError α × List Nat) (input : List Nat)
    (sz : Int) (rest : List Nat) (h : readSize input = (.ok sz, rest)) :
    lengthProvidedArrayRead readSize asSize readElem input =
      readN readElem (asSize sz) rest := by
  simp only [lengthProvidedArrayRead, h]

/-- The two-byte little-endian count `[3, 0]` decodes to the `i16` 3. -/
lemma i16Read_30 (rest : List Nat) : i16Read (3 :: 0 :: rest) = (.ok 3, rest) := by
  simp only [i16Read, takeN]
  rw [if_pos (by simp : 2 ≤ (3 :: 0 :: rest).length)]
  dsimp only
  norm_num [toSigned, leNum]

/-- C7: `LengthProvidedArray` encode writes the size-number built from the
element count and then each element in order — with a 16-bit count and the
VarInt elements `[321, -312325, 328138]`, the 2-byte count `[3, 0]`
followed by the three VarInt encodings — decode reads the count back and
then exactly that many elements, and in general a successful `readN`
yields exactly `n` elements. -/
theorem length_provided_array_spec :
    (lengthProvidedArrayWrite i16SizeWrite varIntWrite
        [(321 : Int), -312325, 328138] =
      [3, 0] ++ varIntWrite 321 ++ varIntWrite (-312325) ++ varIntWrite 328138) ∧
    (lengthProvidedArrayRead i16Read usizeOfInt varIntRead
        (lengthProvidedArrayWrite i16SizeWrite varIntWrite
          [(321 : Int), -312325, 328138]) =
      (.ok [(321 : Int), -312325, 328138], [])) ∧
    ∀ (α : Type) (readElem : List Nat → Except ReadError α × List Nat)
      (n : Nat) (input : List Nat) (res : List α) (rest : List Nat),
      readN readElem n input = (.ok res, rest) → res.length = n := by
  have h1 : lengthProvidedArrayWrite i16SizeWrite varIntWrite
      [(321 : Int), -312325, 328138] =
      3 :: 0 :: writeElements varIntWrite [(321 : Int), -312325, 328138] := by
    have hsz : i16SizeWrite 3 = [3, 0] := by decide
    have hstep : lengthProvidedArrayWrite i16SizeWrite varIntWrite
        [(321 : Int), -312325, 328138] =
        i16SizeWrite 3 ++ writeElements varIntWrite [(321 : Int), -312325, 328138] :=
      rfl
    rw [hstep, hsz]
    rfl
  refine ⟨?_, ?_, fun α readElem n input res rest h =>
    readN_length readElem n input res rest h⟩
  · rw [h1]
    simp only [writeElements]
    simp [List.append_assoc]
  · rw [h1]
    rw [lengthProvidedArrayRead_ok i16Read usizeOfInt varIntRead _ 3 _ (i16Read_30 _)]
    rw [show usizeOfInt 3 = 3 from by decide]
    have hrt := readN_writeElements varIntRead varIntWrite
      [(321 : Int), -312325, 328138] []
      (by
        intro a ha r
        simp only [List.mem_cons, List.not_mem_nil, or_false] at ha
        rcases ha with rfl | rfl | rfl <;>
          exact varIntRead_write _ (by norm_num) (by norm_num) r)
    rw [List.append_nil] at hrt
    simp only [List.length_cons, List.length_nil] at hrt
    norm_num at hrt
    exact hrt

/-- Witness for the `readN` length law in `length_provided_array_spec`,
at two byte elements. -/
theorem length_provided_array_spec_witness : ([5, 6] : List Nat).length = 2 :=
  length_provided_array_spec.2.2 Nat u8Read 2 [5, 6] [5, 6] [] (by decide)

/-- Witness for `blockposition_roundtrip` at the three listed positions. -/
theorem blockposition_roundtrip_witness :
    blockPositionRead (blockPositionWrite 1 1 1) = (.ok (1, 1, 1), []) ∧
    blockPositionRead (blockPositionWrite (-321) 32 (-32)) =
      (.ok (-321, 32, -32), []) ∧
    blockPositionRead (blockPositionWrite 321 255 (-325837)) =
      (.ok (321, 255, -325837), []) :=
  ⟨blockposition_roundtrip 1 1 1 (by norm_num) (by norm_num) (by norm_num)
      (by norm_num) (by norm_num) (by norm_num),
   blockposition_roundtrip (-321) 32 (-32) (by norm_num) (by norm_num)
      (by norm_num) (by norm_num) (by norm_num) (by norm_num),
   blockposition_roundtrip 321 255 (-325837) (by norm_num) (by norm_num)
      (by norm_num) (by norm_num) (by norm_num) (by norm_num)⟩

/-! ## The `BlockId` delegation -/

/-- `BlockId` (`fully_delegate_type!(BlockId, VarInt)` at `protocol.rs`
line 585): a newtype wrapping the delegate's value. -/
structure BlockId where
  val : Int
deriving DecidableEq, Repr

/-- `BlockId::write` from the macro: `self.0.write(output)`. -/
def blockIdWrite (b : BlockId) : List Nat := varIntWrite b.val

/-- `BlockId::read` from the macro:
`<VarInt as Readable>::read(input)?.into()`. -/
def blockIdRead (input : List Nat) : Except ReadError BlockId × List Nat :=
  match varIntRead input with
  | (.ok v, rest) => (.ok ⟨v⟩, rest)
  | (.error e, rest) => (.error e, rest)

/-- C9: `BlockId` is wire-identical to `VarInt`: it writes exactly the
bytes `VarInt` writes for the wrapped value, and on any input it decodes
to `BlockId(v)` exactly when `VarInt` decodes to `v` there, consuming the
same bytes, with identical failures. -/
theorem blockid_delegates_varint :
    (∀ v : Int, blockIdWrite ⟨v⟩ = varIntWrite v) ∧
    (∀ (input rest : List Nat) (v : Int),
      blockIdRead input = (.ok ⟨v⟩, rest) ↔ varIntRead input = (.ok v, rest)) ∧
    (∀ (input rest : List Nat) (e : ReadError),
      blockIdRead input = (.error e, rest) ↔
        varIntRead input = (.error e, rest)) := by
  refine ⟨fun v => rfl, ?_, ?_⟩
  · intro input rest v
    rcases h : varIntRead input with ⟨res, r⟩
    cases res <;> simp [blockIdRead, h, BlockId.mk.injEq]
  · intro input rest e
    rcases h : varIntRead input with ⟨res, r⟩
    cases res <;> simp [blockIdRead, h]

/-! ## Angle -/

/-- `f32`'s `Writable` impl (`protocol_num_type!(f32)`):
`output.put_bytes(&self.to_le_bytes())` — the four little-endian bytes of
the value's 32-bit pattern. -/
def f32WriteBytes (bits : Nat) : List Nat := leBytes 4 bits

/-- `Angle::write` (`protocol.rs` lines 531–535): the source computes
`self.0 * 256.0 / PI` — still an `f32` — and passes it to `f32::write`, so
whatever 32-bit pattern `scaledBits` the scaling produces, the encoding is
its four little-endian bytes.  The IEEE-754 arithmetic itself is not
modelled: the emitted byte count is independent of it (for `Angle(0.0)`
the scaled value is `0.0`, pattern 0). -/
def angleWriteOfScaled (scaledBits : Nat) : List Nat := f32WriteBytes scaledBits

/-- C4 (code divergence): `Angle::write` appends four bytes — the
little-endian `f32` encoding of the scaled value — not one; at
`Angle(0.0)` (scaled pattern 0) the output is `[0, 0, 0, 0]`. -/
theorem angle_write_four_bytes :
    (∀ scaledBits : Nat, (angleWriteOfScaled scaledBits).length = 4) ∧
    angleWriteOfScaled 0 = [0, 0, 0, 0] :=
  ⟨fun s => leBytes_length 4 s, by decide⟩

end CubicProtocol
